import Mathlib

/-!
Shallow embedding of `pkg/apis/core/validation/utils.go` from
gardener-extension-provider-aws (vendored gardener validation utilities),
together with proofs about the embedded functions.

Go slices of strings become `List String`, Go `int` arithmetic on lengths
becomes `Int`, the `field.ErrorList` machinery becomes a `List FieldError`
over an explicit `Path` type, and the external k8s helpers
(`strings.Contains`, `validation.IsValidPercent`, `strconv.Atoi`,
`intstr.IntOrString`) are embedded by their documented semantics.
-/

namespace GardenerValidation

/-- Go `equal(new, old)` from utils.go: iterates over the indices of `new`
and compares `new[i]` with `old[i]`.  The only caller invokes it with
`len(new) == len(old)`; indexing `old` past its end would panic in Go, so
the embedding returns `true` once either list is exhausted. -/
def equal : List String → List String → Bool
  | [], _ => true
  | _ :: _, [] => true
  | n :: ns, o :: os => n == o && equal ns os

/-- Go `ShouldEnforceImmutability(new, old)` from utils.go: computes
`sizeDelta = len(new) - len(old)`; when positive it truncates `new` to
`len(new) - sizeDelta` elements, returns `false` on an exact element-wise
match with `old`, and otherwise recurses on the truncated slice; when
`sizeDelta <= 0` it returns `sizeDelta < 0 || sizeDelta == 0`. -/
def ShouldEnforceImmutability (new old : List String) : Bool :=
  if h : 0 < (new.length : Int) - (old.length : Int) then
    let newA := new.take (new.length - (new.length - old.length))
    if equal newA old then false
    else ShouldEnforceImmutability newA old
  else
    decide ((new.length : Int) - (old.length : Int) < 0) ||
      decide ((new.length : Int) - (old.length : Int) = 0)
termination_by new.length
decreasing_by
  simp only [List.length_take]
  omega

theorem equal_self (a : List String) : equal a a = true := by
  induction a with
  | nil => rfl
  | cons x xs ih => simp [equal, ih]

theorem equal_eq_true_iff (a b : List String) (h : a.length = b.length) :
    equal a b = true ↔ a = b := by
  induction a generalizing b with
  | nil =>
    cases b with
    | nil => simp [equal]
    | cons y ys => simp at h
  | cons x xs ih =>
    cases b with
    | nil => simp at h
    | cons y ys =>
      simp only [equal, Bool.and_eq_true, beq_iff_eq, List.cons.injEq]
      have := ih ys (by simpa using h)
      tauto

theorem shouldEnforce_of_le (new old : List String)
    (h : new.length ≤ old.length) : ShouldEnforceImmutability new old = true := by
  unfold ShouldEnforceImmutability
  have hd : ¬ (0 < (new.length : Int) - (old.length : Int)) := by omega
  simp only [hd, dite_false]
  have : ((new.length : Int) - (old.length : Int) < 0) ∨
      ((new.length : Int) - (old.length : Int) = 0) := by omega
  rcases this with h1 | h1 <;> simp [h1]

theorem shouldEnforce_of_gt (new old : List String)
    (h : old.length < new.length) :
    ShouldEnforceImmutability new old = !(equal (new.take old.length) old) := by
  unfold ShouldEnforceImmutability
  have hd : 0 < (new.length : Int) - (old.length : Int) := by omega
  have hk : new.length - (new.length - old.length) = old.length := by omega
  simp only [hd, dite_true, hk]
  cases he : equal (new.take old.length) old with
  | false =>
    simp only [Bool.not_false]
    exact shouldEnforce_of_le _ _ (by simp [List.length_take])
  | true => simp

/-- The non-recursive decision stated by the refinement claim for
`ShouldEnforceImmutability`: allow (return `false`) exactly when `new` is
strictly longer than `old` and the first `len(old)` elements of `new` are
element-wise equal to `old`. -/
def shouldEnforceImmutabilityFlat (new old : List String) : Bool :=
  !(decide (old.length < new.length) && (new.take old.length == old))

/-- Step-indexed version of `ShouldEnforceImmutability`: one unit of fuel is
consumed per call, `none` meaning the fuel ran out before the recursion
finished. -/
def shouldEnforceImmutabilityFuel : Nat → List String → List String → Option Bool
  | 0, _, _ => none
  | fuel + 1, new, old =>
    if 0 < (new.length : Int) - (old.length : Int) then
      let newA := new.take (new.length - (new.length - old.length))
      if equal newA old then some false
      else shouldEnforceImmutabilityFuel fuel newA old
    else
      some (decide ((new.length : Int) - (old.length : Int) < 0) ||
        decide ((new.length : Int) - (old.length : Int) = 0))

/-- C10: `ShouldEnforceImmutability` is extensionally equal to the
non-recursive decision: it returns `false` iff `new` is strictly longer than
`old` and the first `len(old)` elements of `new` are element-wise equal to
`old` (the recursive call always receives a truncated `new` of the same
length as `old`, so it returns `true` after depth one). -/
theorem equal_eq_beq (a b : List String) (h : a.length = b.length) :
    equal a b = (a == b) := by
  cases hb : a == b with
  | true =>
    rw [(equal_eq_true_iff a b h).mpr (by simpa using hb)]
  | false =>
    cases he : equal a b with
    | false => rfl
    | true =>
      have : a = b := (equal_eq_true_iff a b h).mp he
      rw [this] at hb
      simp at hb

theorem shouldEnforceImmutability_eq_flat (new old : List String) :
    ShouldEnforceImmutability new old = shouldEnforceImmutabilityFlat new old := by
  unfold shouldEnforceImmutabilityFlat
  rcases le_or_lt new.length old.length with h | h
  · rw [shouldEnforce_of_le new old h]
    have hno : ¬ (old.length < new.length) := by omega
    simp [hno]
  · rw [shouldEnforce_of_gt new old h]
    have hlen : (new.take old.length).length = old.length := by
      simp [List.length_take]
      omega
    rw [equal_eq_beq _ _ hlen]
    have hdec : decide (old.length < new.length) = true := by simpa using h
    rw [hdec, Bool.true_and]

/-- C1 counterexample: the claim "return `false` whenever `new` is obtainable
from `old` by inserting zero or more new elements at arbitrary positions,
original relative order retained" fails on the code: inserting one element at
the front (`old` is a sublist of `new`) still yields `true`, and so does the
zero-insertion case `new = old`. -/
theorem shouldEnforceImmutability_insertion_claim_refuted :
    (List.Sublist ["a"] ["x", "a"] ∧
      ShouldEnforceImmutability ["x", "a"] ["a"] = true) ∧
    (List.Sublist ["a"] ["a"] ∧
      ShouldEnforceImmutability ["a"] ["a"] = true) := by
  refine ⟨⟨by decide, ?_⟩, ⟨by decide, ?_⟩⟩
  · rw [shouldEnforce_of_gt _ _ (by decide)]
    decide
  · exact shouldEnforce_of_le _ _ (by decide)

/-- C1 (amended): `ShouldEnforceImmutability` returns `false` (allows the
update) whenever `new` is obtainable from `old` by inserting one or more new
elements, all placed at the end, with `old` retained as the unchanged
prefix. -/
theorem shouldEnforceImmutability_false_of_trailing_insert
    (new old : List String) (hlen : old.length < new.length)
    (hpre : new.take old.length = old) :
    ShouldEnforceImmutability new old = false := by
  rw [shouldEnforce_of_gt new old hlen]
  have he : equal (new.take old.length) old = true := by
    rw [equal_eq_true_iff _ _ (by simp [List.length_take]; omega)]
    exact hpre
  simp [he]

theorem shouldEnforceImmutability_false_of_trailing_insert_witness :
    ShouldEnforceImmutability ["a", "b"] ["a"] = false :=
  shouldEnforceImmutability_false_of_trailing_insert ["a", "b"] ["a"]
    (by decide) (by decide)

/-- C2: a pure trailing append is always allowed: for every `old` and every
non-empty `extra`, `ShouldEnforceImmutability (old ++ extra) old = false`. -/
theorem shouldEnforceImmutability_append_allowed (old extra : List String)
    (h : extra ≠ []) :
    ShouldEnforceImmutability (old ++ extra) old = false := by
  have hlen : old.length < (old ++ extra).length := by
    have := List.length_pos.mpr h
    simp [List.length_append]
    omega
  rw [shouldEnforce_of_gt _ _ hlen]
  rw [List.take_left]
  simp [equal_self]

theorem shouldEnforceImmutability_append_allowed_witness :
    ShouldEnforceImmutability (([] : List String) ++ ["x"]) [] = false :=
  shouldEnforceImmutability_append_allowed [] ["x"] (by decide)

/-- C3: equal-length inputs always enforce: whenever `len(new) = len(old)`,
`ShouldEnforceImmutability new old = true`, even when the two lists are
element-wise identical; in particular it holds for `new = old`. -/
theorem shouldEnforceImmutability_of_eq_length (new old : List String)
    (h : new.length = old.length) : ShouldEnforceImmutability new old = true :=
  shouldEnforce_of_le new old (le_of_eq h)

theorem shouldEnforceImmutability_of_eq_length_witness :
    ShouldEnforceImmutability ["a"] ["a"] = true :=
  shouldEnforceImmutability_of_eq_length ["a"] ["a"] rfl

/-- C4: shrinking always enforces: whenever `len(new) < len(old)`,
`ShouldEnforceImmutability new old = true`; in particular dropping the last
element of any non-empty `old` enforces. -/
theorem shouldEnforceImmutability_of_shrink :
    (∀ new old : List String, new.length < old.length →
      ShouldEnforceImmutability new old = true) ∧
    (∀ old : List String, old ≠ [] →
      ShouldEnforceImmutability old.dropLast old = true) := by
  constructor
  · exact fun new old h => shouldEnforce_of_le new old (le_of_lt h)
  · intro old h
    apply shouldEnforce_of_le
    simp [List.length_dropLast]

theorem shouldEnforceImmutability_of_shrink_witness :
    ShouldEnforceImmutability [] ["a"] = true :=
  shouldEnforceImmutability_of_shrink.1 [] ["a"] (by decide)

/-- C5: insertion in the middle and reordering both enforce:
`ShouldEnforceImmutability ["a","x","b"] ["a","b"] = true` and
`ShouldEnforceImmutability ["b","a"] ["a","b"] = true`. -/
theorem shouldEnforceImmutability_middle_and_reorder :
    ShouldEnforceImmutability ["a", "x", "b"] ["a", "b"] = true ∧
    ShouldEnforceImmutability ["b", "a"] ["a", "b"] = true := by
  constructor
  · rw [shouldEnforce_of_gt _ _ (by decide)]
    decide
  · exact shouldEnforce_of_le _ _ (by decide)

/-- C6: the recursion terminates on every pair of finite lists: the
step-indexed execution converges to the total function as soon as the fuel
exceeds `len(new)` (the measure the recursion strictly decreases), always
producing a boolean. -/
theorem shouldEnforceImmutabilityFuel_converges (fuel : Nat)
    (new old : List String) (h : new.length < fuel) :
    shouldEnforceImmutabilityFuel fuel new old =
      some (ShouldEnforceImmutability new old) := by
  induction fuel generalizing new with
  | zero => omega
  | succ n ih =>
    rcases le_or_lt new.length old.length with hle | hgt
    · have hd : ¬ (0 < (new.length : Int) - (old.length : Int)) := by omega
      rw [shouldEnforce_of_le new old hle]
      simp only [shouldEnforceImmutabilityFuel, hd, if_false]
      have : ((new.length : Int) - (old.length : Int) < 0) ∨
          ((new.length : Int) - (old.length : Int) = 0) := by omega
      rcases this with h1 | h1 <;> simp [h1]
    · have hd : 0 < (new.length : Int) - (old.length : Int) := by omega
      have hk : new.length - (new.length - old.length) = old.length := by omega
      rw [shouldEnforce_of_gt new old hgt]
      simp only [shouldEnforceImmutabilityFuel, hd, if_true, hk]
      cases he : equal (new.take old.length) old with
      | true => simp
      | false =>
        simp only [Bool.not_false]
        rw [ih (new.take old.length) (by simp [List.length_take]; omega)]
        rw [shouldEnforce_of_le _ _ (by simp [List.length_take])]
        simp

theorem shouldEnforceImmutabilityFuel_converges_witness :
    shouldEnforceImmutabilityFuel 3 ["a", "b"] ["a"] =
      some (ShouldEnforceImmutability ["a", "b"] ["a"]) :=
  shouldEnforceImmutabilityFuel_converges 3 ["a", "b"] ["a"] (by decide)

/-- `field.Path` from k8s apimachinery, reduced to what the validators use:
the ordered list of path segments; `Child` appends one segment. -/
structure Path where
  segments : List String
  deriving DecidableEq

def Path.child (p : Path) (s : String) : Path := ⟨p.segments ++ [s]⟩

/-- The `field.ErrorType` constants produced in utils.go. -/
inductive ErrorType
  | Required
  | Invalid
  deriving DecidableEq

/-- A `field.Error`, reduced to the components the validators set: the type,
the field path, the offending value (`none` for omissions) and the detail
message. -/
structure FieldError where
  type : ErrorType
  path : Path
  badValue : Option String
  detail : String
  deriving DecidableEq

/-- `field.Required(path, detail)`. -/
def fieldRequired (p : Path) (detail : String) : FieldError :=
  ⟨ErrorType.Required, p, none, detail⟩

/-- `field.Invalid(path, value, detail)`. -/
def fieldInvalid (p : Path) (value : String) (detail : String) : FieldError :=
  ⟨ErrorType.Invalid, p, some value, detail⟩

/-- `corev1.SecretReference`: the two string attributes checked here. -/
structure SecretReference where
  Name : String
  Namespace : String

/-- Go `validateSecretReference(ref, fldPath)` from utils.go: appends a
Required error at `fldPath.Child("name")` when `len(ref.Name) == 0` and a
Required error at `fldPath.Child("namespace")` when
`len(ref.Namespace) == 0`. -/
def validateSecretReference (ref : SecretReference) (fldPath : Path) :
    List FieldError :=
  let allErrs : List FieldError := []
  let allErrs := if ref.Name.length = 0
    then allErrs ++ [fieldRequired (fldPath.child "name") "must provide a name"]
    else allErrs
  let allErrs := if ref.Namespace.length = 0
    then allErrs ++
      [fieldRequired (fldPath.child "namespace") "must provide a namespace"]
    else allErrs
  allErrs

/-- Recursive worker for `strings.Contains`: `sub` occurs in `s` iff it is a
prefix of `s` or occurs in the tail of `s`. -/
def containsAux : List Char → List Char → Bool
  | [], sub => sub.isEmpty
  | c :: rest, sub => sub.isPrefixOf (c :: rest) || containsAux rest sub

/-- Go `strings.Contains(s, substr)`: reports whether `substr` is within
`s`, embedded character-wise. -/
def stringsContains (s substr : String) : Bool :=
  containsAux s.data substr.data

/-- Go `validateNameConsecutiveHyphens(name, fldPath)` from utils.go:
appends an Invalid error at `fldPath` when `strings.Contains(name, "--")`. -/
def validateNameConsecutiveHyphens (name : String) (fldPath : Path) :
    List FieldError :=
  let allErrs : List FieldError := []
  let allErrs := if stringsContains name "--"
    then allErrs ++
      [fieldInvalid fldPath name "name may not contain two consecutive hyphens"]
    else allErrs
  allErrs

theorem containsAux_iff (s sub : List Char) :
    containsAux s sub = true ↔ ∃ l r, s = l ++ sub ++ r := by
  induction s with
  | nil =>
    simp only [containsAux, List.isEmpty_iff]
    constructor
    · intro h
      exact ⟨[], [], by simp [h]⟩
    · rintro ⟨l, r, h⟩
      rcases List.append_eq_nil.mp h.symm with ⟨h1, h2⟩
      exact (List.append_eq_nil.mp h1).2
  | cons c rest ih =>
    simp only [containsAux, Bool.or_eq_true, ih, List.isPrefixOf_iff_prefix]
    constructor
    · rintro (⟨t, ht⟩ | ⟨l, r, h⟩)
      · exact ⟨[], t, by simpa using ht.symm⟩
      · exact ⟨c :: l, r, by simp [h]⟩
    · rintro ⟨l, r, h⟩
      cases l with
      | nil =>
        left
        exact ⟨r, by simpa using h.symm⟩
      | cons x xs =>
        right
        refine ⟨xs, r, ?_⟩
        have h2 : c :: rest = x :: (xs ++ sub ++ r) := by simpa using h
        exact ((List.cons.injEq c rest x (xs ++ sub ++ r)).mp h2).2

theorem string_length_eq_zero_iff (s : String) : s.length = 0 ↔ s = "" := by
  constructor
  · intro h
    exact String.ext (List.length_eq_zero.mp h)
  · intro h
    simp [h]

/-- C7: `validateSecretReference` yields a Required error at
`path.Child("name")` iff the name is empty and a Required error at
`path.Child("namespace")` iff the namespace is empty; when both are empty
the result is exactly the two errors with the name error first, and when
both are non-empty the result is empty. -/
theorem validateSecretReference_required_iff (ref : SecretReference) (p : Path) :
    ((∃ e ∈ validateSecretReference ref p,
        e.type = ErrorType.Required ∧ e.path = p.child "name") ↔ ref.Name = "") ∧
    ((∃ e ∈ validateSecretReference ref p,
        e.type = ErrorType.Required ∧ e.path = p.child "namespace") ↔
      ref.Namespace = "") ∧
    (ref.Name = "" ∧ ref.Namespace = "" →
      validateSecretReference ref p =
        [fieldRequired (p.child "name") "must provide a name",
          fieldRequired (p.child "namespace") "must provide a namespace"]) ∧
    (ref.Name ≠ "" ∧ ref.Namespace ≠ "" → validateSecretReference ref p = []) := by
  have hpaths : p.child "name" ≠ p.child "namespace" := by
    intro hcontra
    have := congrArg Path.segments hcontra
    simp [Path.child] at this
  have hpaths' : p.child "namespace" ≠ p.child "name" := fun hcontra =>
    hpaths hcontra.symm
  by_cases hn : ref.Name = "" <;> by_cases hns : ref.Namespace = "" <;>
    simp_all [validateSecretReference, fieldRequired,
      string_length_eq_zero_iff]

theorem validateSecretReference_required_iff_witness :
    validateSecretReference ⟨"", ""⟩ ⟨[]⟩ =
      [fieldRequired (Path.child ⟨[]⟩ "name") "must provide a name",
        fieldRequired (Path.child ⟨[]⟩ "namespace") "must provide a namespace"] :=
  (validateSecretReference_required_iff ⟨"", ""⟩ ⟨[]⟩).2.2.1 ⟨rfl, rfl⟩

/-- C8: `validateNameConsecutiveHyphens` returns exactly one Invalid error
at `path` iff the literal substring "--" occurs anywhere in `name`, returns
the empty list otherwise, and never returns more than one error. -/
theorem validateNameConsecutiveHyphens_invalid_iff (name : String) (p : Path) :
    (validateNameConsecutiveHyphens name p =
        [fieldInvalid p name "name may not contain two consecutive hyphens"] ↔
      ∃ l r, name.data = l ++ ('-' :: '-' :: []) ++ r) ∧
    (validateNameConsecutiveHyphens name p = [] ↔
      ¬ ∃ l r, name.data = l ++ ('-' :: '-' :: []) ++ r) ∧
    (validateNameConsecutiveHyphens name p).length ≤ 1 := by
  have hc := containsAux_iff name.data ('-' :: '-' :: [])
  have hdata : ("--" : String).data = ('-' :: '-' :: []) := rfl
  by_cases hsub : containsAux name.data ('-' :: '-' :: []) = true
  · have hocc := hc.mp hsub
    simp_all [validateNameConsecutiveHyphens, stringsContains, hdata]
  · have hnocc : ¬ ∃ l r, name.data = l ++ ('-' :: '-' :: []) ++ r := by
      intro hcontra
      exact hsub (hc.mpr hcontra)
    simp_all [validateNameConsecutiveHyphens, stringsContains, hdata]

theorem validateNameConsecutiveHyphens_invalid_iff_witness :
    validateNameConsecutiveHyphens "foo--bar" ⟨[]⟩ =
      [fieldInvalid ⟨[]⟩ "foo--bar" "name may not contain two consecutive hyphens"] :=
  (validateNameConsecutiveHyphens_invalid_iff "foo--bar" ⟨[]⟩).1.mpr
    ⟨'f' :: 'o' :: 'o' :: [], 'b' :: 'a' :: 'r' :: [], by decide⟩

/-- `intstr.Type`: the tag of the int-or-string union, with the constants
`intstr.Int` and `intstr.String`. -/
inductive IntOrStringType
  | Int
  | String
  deriving DecidableEq

/-- `intstr.IntOrString`: the tagged union; `IntVal` carries the integer
variant, `StrVal` the string variant. -/
structure IntOrString where
  «Type» : IntOrStringType
  IntVal : Int
  StrVal : String

/-- The numeric value of a digit run, most significant digit first. -/
def digitsVal (cs : List Char) : Nat :=
  cs.foldl (fun acc c => acc * 10 + (c.toNat - 48)) 0

/-- Go `strconv.Atoi(s)`, which returns a value together with an error the
caller here discards: an optional sign followed by one or more digits parses
to that integer, and any malformed input yields value 0 (overflow clamping
of 64-bit Go ints is not modelled; the only call site passes the digit run
of an already-validated percent string). -/
def atoi (s : String) : Int :=
  match s.data with
  | '+' :: rest =>
    if rest ≠ [] ∧ rest.all Char.isDigit then (digitsVal rest : Int) else 0
  | '-' :: rest =>
    if rest ≠ [] ∧ rest.all Char.isDigit then -(digitsVal rest : Int) else 0
  | cs =>
    if cs ≠ [] ∧ cs.all Char.isDigit then (digitsVal cs : Int) else 0

/-- k8s `validation.IsValidPercent(percent)`: the string must match the
regex `[0-9]+%` (one or more digits followed by a percent sign); returns the
violation messages, empty when valid. -/
def IsValidPercent (percent : String) : List String :=
  if percent.data ≠ [] ∧ percent.data.dropLast ≠ [] ∧
      percent.data.dropLast.all Char.isDigit ∧
      percent.data.getLast? = some '%'
  then []
  else ["a valid percent string must be a numeric string followed by an ending percent sign"]

/-- Go `getPercentValue(intOrStringValue)` from utils.go: yields
`(0, false)` unless the union is string-typed with a valid percent string,
in which case it yields the parsed number with `true`. -/
def getPercentValue (intOrStringValue : IntOrString) : Int × Bool :=
  if intOrStringValue.«Type» ≠ IntOrStringType.String then (0, false)
  else if (IsValidPercent intOrStringValue.StrVal).length ≠ 0 then (0, false)
  else (atoi (intOrStringValue.StrVal.dropRight 1), true)

/-- `intstr.IntOrString.IntValue()`: the integer variant directly, or the
string variant parsed with `strconv.Atoi` (0 on a parse error). -/
def IntOrString.IntValue (v : IntOrString) : Int :=
  if v.«Type» = IntOrStringType.Int then v.IntVal else atoi v.StrVal

/-- Go `getIntOrPercentValue(intOrStringValue)` from utils.go: the percent
number when the union is a valid percent string, the plain integer value
otherwise. -/
def getIntOrPercentValue (intOrStringValue : IntOrString) : Int :=
  let p := getPercentValue intOrStringValue
  if p.2 then p.1 else intOrStringValue.IntValue

/-- C9: `getPercentValue` on the string-typed union value "42%" returns
`(42, true)`; on the integer-typed union value 5 it returns `(0, false)`. -/
theorem getPercentValue_examples :
    getPercentValue ⟨IntOrStringType.String, 0, "42%"⟩ = (42, true) ∧
    getPercentValue ⟨IntOrStringType.Int, 5, ""⟩ = (0, false) := by
  constructor
  · decide
  · decide

end GardenerValidation
